import Mathlib

/-!
# Verification of the NLdigital membership-churn scripts

Shallow embedding of the string-normalization and membership-flow logic of
the repository's Python scripts, together with proofs of the spec's claims.

Strings are modelled as `List Char` (with `String` wrappers built from
`String.data`).  Python's Unicode-aware character classes (`\w`, `\s`,
`str.lower`) are modelled at the ASCII level, which is the character range
the scripts' slugs and URLs live in.
-/

namespace NLdigital

/-- ASCII whitespace set of Python's `str.strip()` / regex `\s`:
space, tab, newline, carriage return, vertical tab, form feed. -/
def isPySpace (c : Char) : Bool :=
  c = ' ' || c = '\t' || c = '\n' || c = '\r' || c = '\x0b' || c = '\x0c'

/-- Characters matched by the regex class `[a-z0-9]` (the slugs' alphabet
before hyphenation). -/
def isLowerAlnum (c : Char) : Bool :=
  ('a' ≤ c && c ≤ 'z') || ('0' ≤ c && c ≤ '9')

/-- Word character for the regex word boundary `\b` (`[a-zA-Z0-9_]` at the
ASCII level). -/
def isWordChar (c : Char) : Bool :=
  c.isAlpha || c.isDigit || c = '_'

/-- The optional separator of the regex `\bb[\.\-\s]?v\b`: a dot, a hyphen
or a whitespace character. -/
def isBvSep (c : Char) : Bool :=
  c = '.' || c = '-' || isPySpace c

/-- Test that the position right before `l` is a word boundary coming
from a word character, i.e. `l` does not start with a word character. -/
def noWordAt : List Char → Bool
  | [] => true
  | c :: _ => !isWordChar c

/-- Remove leading characters satisfying `p` (the head end of Python's
`str.strip`). -/
def dropIf (p : Char → Bool) : List Char → List Char
  | [] => []
  | c :: rest => if p c then dropIf p rest else c :: rest

/-- Remove trailing characters satisfying `p` (the tail end of Python's
`str.strip`). -/
def dropIfEnd (p : Char → Bool) : List Char → List Char
  | [] => []
  | c :: rest =>
    match dropIfEnd p rest with
    | [] => if p c then [] else [c]
    | d :: r => c :: d :: r

/-- Python `str.strip` with an arbitrary character class: remove the
characters satisfying `p` from both ends. -/
def stripIf (p : Char → Bool) (l : List Char) : List Char :=
  dropIfEnd p (dropIf p l)

/-- Python `str.strip()` (whitespace). -/
def pyStrip (l : List Char) : List Char := stripIf isPySpace l

/-- Python `str.strip('/')`. -/
def stripSlash (l : List Char) : List Char := stripIf (· = '/') l

/-- Python `str.strip('-')`. -/
def stripHyphen (l : List Char) : List Char := stripIf (· = '-') l

/-- Python `str.lower()` (ASCII level). -/
def lowerL (l : List Char) : List Char := l.map Char.toLower

/-- Python `re.sub(r"\bb[\.\-\s]?v\b", 'bv', s)`: left-to-right scan replacing a
word-boundary-delimited `b`, optionally followed by one separator, then
`v`, by `bv`.  The flag `pw` records whether the previously scanned
original character is a word character (so that `\b` holds exactly when
`pw = false`). -/
def bvSubF : Nat → Bool → List Char → List Char
  | 0, _, l => l
  | _ + 1, _, [] => []
  | fuel + 1, pw, c :: rest =>
    if c = 'b' && !pw then
      match rest with
      | [] => [c]
      | d :: rest2 =>
        if isBvSep d then
          match rest2 with
          | [] => c :: bvSubF fuel (isWordChar c) rest
          | e :: r3 =>
            if e = 'v' && noWordAt r3 then 'b' :: 'v' :: bvSubF fuel true r3
            else c :: bvSubF fuel (isWordChar c) rest
        else if d = 'v' && noWordAt rest2 then
          'b' :: 'v' :: bvSubF fuel true rest2
        else c :: bvSubF fuel (isWordChar c) rest
    else c :: bvSubF fuel (isWordChar c) rest

/-- Entry point for `bvSubF`: the fuel
`l.length` always suffices since every step consumes at least one
character. -/
def bvSub (pw : Bool) (l : List Char) : List Char := bvSubF l.length pw l

/-- Scan mirroring `bvSubF`: `true` iff no separator-form match
(`b.v`, `b-v`, `b v`) occurs anywhere during the scan.  Zero-separator
matches (`bv`), which the substitution rewrites to themselves, are
allowed. -/
def bvNoSepF : Nat → Bool → List Char → Bool
  | 0, _, _ => true
  | _ + 1, _, [] => true
  | fuel + 1, pw, c :: rest =>
    if c = 'b' && !pw then
      match rest with
      | [] => true
      | d :: rest2 =>
        if isBvSep d then
          match rest2 with
          | [] => bvNoSepF fuel (isWordChar c) rest
          | e :: r3 =>
            if e = 'v' && noWordAt r3 then false
            else bvNoSepF fuel (isWordChar c) rest
        else if d = 'v' && noWordAt rest2 then
          bvNoSepF fuel true rest2
        else bvNoSepF fuel (isWordChar c) rest
    else bvNoSepF fuel (isWordChar c) rest

/-- Test that no separator-form `b.v`/`b-v`/`b v` match occurs in `l`. -/
def bvNoSep (l : List Char) : Bool := bvNoSepF l.length false l

/-- Python `re.sub(r'[^a-z0-9]+', '-', s)`: every maximal run of characters
outside `[a-z0-9]` becomes a single hyphen.  The flag `inRun` is `true`
while inside such a run (whose hyphen has already been emitted). -/
def collapseNA (inRun : Bool) : List Char → List Char
  | [] => []
  | c :: rest =>
    if isLowerAlnum c then c :: collapseNA false rest
    else if inRun then collapseNA true rest
    else '-' :: collapseNA true rest

/-- Python `re.sub(r'-{2,}', '-', s)`: runs of two or more hyphens become one.
The flag `prevHy` is `true` when the previous emitted-run character was a
hyphen. -/
def collapseHy (prevHy : Bool) : List Char → List Char
  | [] => []
  | c :: rest =>
    if c = '-' then
      if prevHy then collapseHy true rest
      else '-' :: collapseHy true rest
    else c :: collapseHy false rest

/-- The string `"logo-"` as a character list. -/
def logoDashL : List Char := ['l', 'o', 'g', 'o', '-']

/-- Drop a leading `"logo-"` when present
(`if s.startswith('logo-'): s = s[len('logo-'):]`). -/
def dropLogo (l : List Char) : List Char :=
  if logoDashL.isPrefixOf l then l.drop 5 else l

/-- Python `re.sub(r"\.(jpg|jpeg|png|gif)$", '', s)`: remove one trailing image
extension.  The four alternatives are mutually exclusive as suffixes, so a
suffix test per alternative is equivalent to the anchored regex. -/
def dropExt (l : List Char) : List Char :=
  if List.isSuffixOf ['.', 'j', 'p', 'g'] l then l.take (l.length - 4)
  else if List.isSuffixOf ['.', 'j', 'p', 'e', 'g'] l then l.take (l.length - 5)
  else if List.isSuffixOf ['.', 'p', 'n', 'g'] l then l.take (l.length - 4)
  else if List.isSuffixOf ['.', 'g', 'i', 'f'] l then l.take (l.length - 4)
  else l

/-- The function `slugify` of `analyze_member_flow.py` (lines 27-53), stage by stage:
strip, lower, strip `'/'`, drop a leading `"logo-"`, drop an image
extension, normalize `b v`/`b-v`/`b.v` to `bv`, collapse non-alphanumeric
runs to hyphens, collapse hyphen runs, strip hyphens. -/
def slugifyL (name : List Char) : List Char :=
  stripHyphen (collapseHy false (collapseNA false (bvSub false
    (dropExt (dropLogo (stripSlash (lowerL (pyStrip name))))))))

/-- The function `slugify` on `String`s. -/
def slugify (s : String) : String := ⟨slugifyL s.data⟩

/-- The function `slugify` applied to an optional string: `(name or '')` maps `None`
(and the empty string) to `''` before normalizing. -/
def slugifyOpt (s : Option String) : String := slugify (s.getD "")

/-- Python `pat in s` (substring containment). -/
def containsSub (pat : List Char) : List Char → Bool
  | [] => pat.isPrefixOf ([] : List Char)
  | c :: rest => pat.isPrefixOf (c :: rest) || containsSub pat rest

/-- The part of `l` after the first occurrence of `pat`, or `none` when
`pat` does not occur (`s.split(pat)` has length 1). -/
def afterFirst (pat : List Char) : List Char → Option (List Char)
  | [] => if pat.isPrefixOf ([] : List Char) then some [] else none
  | c :: rest =>
    if pat.isPrefixOf (c :: rest) then some ((c :: rest).drop pat.length)
    else afterFirst pat rest

/-- The part of `l` before the first occurrence of `pat` (all of `l` when
`pat` does not occur).  `upToFirst pat (afterFirst pat l).get` is
`l.split(pat)[1]` in Python. -/
def upToFirst (pat : List Char) : List Char → List Char
  | [] => []
  | c :: rest =>
    if pat.isPrefixOf (c :: rest) then [] else c :: upToFirst pat rest

/-- The string `"/leden/"`. -/
def ledenL : List Char := "/leden/".data

/-- The string `".jpg"`. -/
def jpgL : List Char := ".jpg".data

/-- The string `".png"`. -/
def pngL : List Char := ".png".data

/-- The string `"wp-content"`. -/
def wpL : List Char := "wp-content".data

/-- The string `"logo"`. -/
def logoL : List Char := "logo".data

/-- The function `extract_company_name` of `analyze_member_flow.py` (lines 13-24):
strip the URL; require a `/leden/` segment and no `.jpg`/`.png` ending;
take `url.split('/leden/')[1]`, strip slashes and whitespace; reject
`wp-content` logo paths; slugify the remaining segment. -/
def extractL (url : List Char) : Option (List Char) :=
  let u := pyStrip url
  if containsSub ledenL u && !(List.isSuffixOf jpgL u) && !(List.isSuffixOf pngL u) then
    match afterFirst ledenL u with
    | some r =>
      let seg := pyStrip (stripSlash (upToFirst ledenL r))
      if wpL.isPrefixOf seg then none else some (slugifyL seg)
    | none => none
  else none

/-- The function `extract_company_name` on `String`s. -/
def extract_company_name (url : String) : Option String :=
  (extractL url.data).map fun l => ⟨l⟩

/-- The slug segment of a member URL: `url.split('/leden/')[1]` with
slashes and whitespace stripped (meaningful when `/leden/` occurs). -/
def ledenSegment (u : List Char) : List Char :=
  pyStrip (stripSlash (upToFirst ledenL ((afterFirst ledenL u).getD [])))

/-- The spec's notion of a genuine member reference (section 4.1): after
stripping, the URL has a `/leden/` segment, does not end in a `.jpg` or
`.png` logo-image extension, and its slug segment is not a `wp-content`
logo path. -/
def isGenuineMemberRef (url : List Char) : Bool :=
  let u := pyStrip url
  containsSub ledenL u && !(List.isSuffixOf jpgL u) &&
    !(List.isSuffixOf pngL u) && !(wpL.isPrefixOf (ledenSegment u))

/-- The function `slugify_nldigital` of `analyze_cross_org_flows.py` (lines 68-79):
like `extract_company_name` but with a `'logo' not in url.lower()` guard
instead of the extension check, no initial strip of the whole URL, and an
inline slug normalization without the `logo-`-prefix and extension
stages. -/
def slugify_nldigitalL (url : List Char) : Option (List Char) :=
  if containsSub ledenL url && !(containsSub logoL (lowerL url)) then
    match afterFirst ledenL url with
    | some r =>
      let s := lowerL (pyStrip (stripSlash (upToFirst ledenL r)))
      if wpL.isPrefixOf s then none
      else some (stripHyphen (collapseHy false (collapseNA false (bvSub false s))))
    | none => none
  else none

/-- The function `slugify_nldigital` on `String`s. -/
def slugify_nldigital (url : String) : Option String :=
  (slugify_nldigitalL url.data).map fun l => ⟨l⟩

/-- The function `slugify_url` of `check_microsoft_partners.py` (lines 18-29); its body
is the same, token for token, as `slugify_nldigital`. -/
def slugify_urlL (url : List Char) : Option (List Char) :=
  if containsSub ledenL url && !(containsSub logoL (lowerL url)) then
    match afterFirst ledenL url with
    | some r =>
      let s := lowerL (pyStrip (stripSlash (upToFirst ledenL r)))
      if wpL.isPrefixOf s then none
      else some (stripHyphen (collapseHy false (collapseNA false (bvSub false s))))
    | none => none
  else none

/-- The function `slugify_url` on `String`s. -/
def slugify_url (url : String) : Option String :=
  (slugify_urlL url.data).map fun l => ⟨l⟩

/-- Python `re.sub(r'\b<t1><t2>\b', '', s)` for a two-word-character token such
as `bv` or `nl`: left-to-right scan deleting each word-boundary-delimited
occurrence.  Fuel-based like `bvSubF`; boundaries are judged on the
original characters (`pw` tracks the previously scanned original
character). -/
def delTokF (t1 t2 : Char) : Nat → Bool → List Char → List Char
  | 0, _, l => l
  | _ + 1, _, [] => []
  | fuel + 1, pw, c :: rest =>
    if c = t1 && !pw then
      match rest with
      | [] => [c]
      | d :: r2 =>
        if d = t2 && noWordAt r2 then delTokF t1 t2 fuel (isWordChar t2) r2
        else c :: delTokF t1 t2 fuel (isWordChar c) rest
    else c :: delTokF t1 t2 fuel (isWordChar c) rest

/-- Entry point for `delTokF` with sufficient fuel. -/
def delTok (t1 t2 : Char) (l : List Char) : List Char :=
  delTokF t1 t2 l.length false l

/-- The function `normalize_slug` of `analyze_cross_org_flows.py` (lines 123-129):
lowercase, strip hyphens then slashes, delete `bv` and `nl` tokens,
remove every non-alphanumeric character. -/
def normalize_slugL (s : List Char) : List Char :=
  List.filter isLowerAlnum (delTok 'n' 'l' (delTok 'b' 'v'
    (stripSlash (stripHyphen (lowerL s)))))

/-- The function `normalize_slug` on `String`s. -/
def normalize_slug (s : String) : String := ⟨normalize_slugL s.data⟩

/-- A membership snapshot: a date and the set of member identifiers
(`{'date': ..., 'members': set(...)}` in the scripts). -/
structure Snapshot where
  date : String
  members : Finset String
deriving DecidableEq

/-- A flow record between two consecutive snapshots, as appended to
`sankey_data` in `analyze_member_flow.py` (lines 124-133) and to `flows`
in `analyze_nlconnect_flow.py` (lines 44-53): counts and sorted member
lists. -/
structure FlowRecord where
  from_date : String
  to_date : String
  stayed : Nat
  joined : Nat
  left : Nat
  stayed_members : List String
  joined_members : List String
  left_members : List String
deriving DecidableEq

/-- Python `sorted(list(m))` on a multiset of strings: the sorted list of its
elements (insertion sort, which is invariant under permutation of the
input). -/
def sortM (m : Multiset String) : List String :=
  Quot.liftOn m (fun l => l.insertionSort (· ≤ ·)) fun l₁ l₂ h =>
    List.eq_of_perm_of_sorted
      ((List.perm_insertionSort _ l₁).trans
        (h.trans (List.perm_insertionSort _ l₂).symm))
      (List.sorted_insertionSort _ l₁) (List.sorted_insertionSort _ l₂)

/-- Python `sorted(list(s))` on a set of strings. -/
def sortFinset (s : Finset String) : List String := sortM s.val

/-- The flow between snapshots `a` (earlier) and `b` (later):
`stayed = a & b`, `joined = b - a`, `left = a - b`, with counts and
sorted member lists (`analyze_member_flow.py` lines 107-133,
`analyze_nlconnect_flow.py` lines 36-53). -/
def mkFlow (a b : Snapshot) : FlowRecord where
  from_date := a.date
  to_date := b.date
  stayed := (a.members ∩ b.members).card
  joined := (b.members \ a.members).card
  left := (a.members \ b.members).card
  stayed_members := sortFinset (a.members ∩ b.members)
  joined_members := sortFinset (b.members \ a.members)
  left_members := sortFinset (a.members \ b.members)

/-- The flow loop `for i in range(len(snapshots) - 1)`: one record per
consecutive pair, in order. -/
def computeFlows (snaps : List Snapshot) : List FlowRecord :=
  List.zipWith mkFlow snaps snaps.tail

/-- The per-snapshot member extraction of `analyze_member_flow.py`
(lines 66-82): the set of successful `extract_company_name` results over
the snapshot's URL list. -/
def snapshotFromUrls (date : String) (urls : List String) : Snapshot :=
  ⟨date, (urls.filterMap extract_company_name).toFinset⟩

/-- The exact cross-org match of `analyze_cross_org_flows.py` (line 57):
`nldigital_departed & nlconnect_joined`. -/
def exactMatch (departed joined : Finset String) : Finset String :=
  departed ∩ joined

/-- The fuzzy cross-org match of `analyze_cross_org_flows.py`
(lines 132-137): the normalized key sets of the two sides intersected
(`set(departed_norm.keys()) & set(joined_norm.keys())`). -/
def fuzzyMatch (departed joined : Finset String) : Finset String :=
  departed.image normalize_slug ∩ joined.image normalize_slug

/-- Outcome of fetching one item in a fetch script's loop: a parsed
value, a non-200 HTTP status (`continue`), or a caught exception
(`except ...: print; continue`). -/
inductive FetchOutcome (β : Type) where
  | success (value : β)
  | httpFail (code : Nat)
  | exn (msg : String)
deriving DecidableEq

/-- The per-item fetch loop shared by `fetch_members.py` (lines 32-96)
and `fetch_nlconnect_members.py` (lines 77-112): each item is fetched
(`fetch` abstracts the network call and parse), successes are
accumulated, non-200 statuses and exceptions skip the item and continue
with the rest. -/
def fetchLoop {α β : Type} (fetch : α → FetchOutcome β) : List α → List β
  | [] => []
  | u :: rest =>
    match fetch u with
    | .success b => b :: fetchLoop fetch rest
    | .httpFail _ => fetchLoop fetch rest
    | .exn _ => fetchLoop fetch rest

/-! ## Slug shape: the invariant of `slugify`'s output -/

/-- A character allowed in a finished slug: `[a-z0-9]` or a hyphen. -/
def isSlugChar (c : Char) : Bool := isLowerAlnum c || c = '-'

/-- Is the character a hyphen? -/
def isHy (c : Char) : Bool := c = '-'

/-- No two adjacent hyphens. -/
def noAdjHy : List Char → Bool
  | [] => true
  | c :: rest =>
    (match rest with
      | [] => true
      | d :: _ => !(isHy c && isHy d)) && noAdjHy rest

/-- The first character (if any) does not satisfy `p`. -/
def headNot (p : Char → Bool) : List Char → Bool
  | [] => true
  | c :: _ => !p c

/-- The last character (if any) does not satisfy `p`. -/
def lastNot (p : Char → Bool) : List Char → Bool
  | [] => true
  | [c] => !p c
  | _ :: rest => lastNot p rest

/-- Shape of a normalized slug: only lowercase alphanumerics and single
interior hyphens, no hyphen at either end. -/
def slugShaped (l : List Char) : Bool :=
  l.all isSlugChar && noAdjHy l && headNot isHy l && lastNot isHy l

theorem charNat {a b : Char} (h : a ≤ b) : a.toNat ≤ b.toNat := by
  simpa only [Char.le_def, UInt32.le_def, BitVec.le_def, Char.toNat,
    UInt32.toNat] using h

theorem lowerAlnum_toNat {c : Char} (h : isLowerAlnum c = true) :
    (97 ≤ c.toNat ∧ c.toNat ≤ 122) ∨ (48 ≤ c.toNat ∧ c.toNat ≤ 57) := by
  simp only [isLowerAlnum, Bool.or_eq_true, Bool.and_eq_true,
    decide_eq_true_eq] at h
  rcases h with ⟨ha, hb⟩ | ⟨ha, hb⟩
  · exact Or.inl ⟨charNat ha, charNat hb⟩
  · exact Or.inr ⟨charNat ha, charNat hb⟩

theorem lowerAlnum_toLower {c : Char} (h : isLowerAlnum c = true) :
    c.toLower = c := by
  have := lowerAlnum_toNat h
  unfold Char.toLower
  rw [if_neg]
  omega

theorem slugChar_toLower {c : Char} (h : isSlugChar c = true) :
    c.toLower = c := by
  simp only [isSlugChar, Bool.or_eq_true, decide_eq_true_eq] at h
  rcases h with h | rfl
  · exact lowerAlnum_toLower h
  · decide

theorem slugChar_toNat {c : Char} (h : isSlugChar c = true) :
    (97 ≤ c.toNat ∧ c.toNat ≤ 122) ∨ (48 ≤ c.toNat ∧ c.toNat ≤ 57) ∨
      c.toNat = 45 := by
  simp only [isSlugChar, Bool.or_eq_true, decide_eq_true_eq] at h
  rcases h with h | rfl
  · rcases lowerAlnum_toNat h with h | h
    · exact Or.inl h
    · exact Or.inr (Or.inl h)
  · exact Or.inr (Or.inr rfl)

theorem slugChar_not_space {c : Char} (h : isSlugChar c = true) :
    isPySpace c = false := by
  simp only [isPySpace, Bool.or_eq_false_iff, decide_eq_false_iff_not]
  refine ⟨⟨⟨⟨⟨?_, ?_⟩, ?_⟩, ?_⟩, ?_⟩, ?_⟩ <;> rintro rfl <;>
    exact absurd h (by decide)

theorem slugChar_not_slash {c : Char} (h : isSlugChar c = true) :
    (c = '/') = False := by
  simp only [eq_iff_iff, iff_false]
  rintro rfl; exact absurd h (by decide)

theorem slugChar_not_dot {c : Char} (h : isSlugChar c = true) :
    (c = '.') = False := by
  simp only [eq_iff_iff, iff_false]
  rintro rfl; exact absurd h (by decide)

theorem lowerAlnum_not_hy {c : Char} (h : isLowerAlnum c = true) :
    isHy c = false := by
  simp only [isHy, decide_eq_false_iff_not]
  rintro rfl; exact absurd h (by decide)

/-! ### Structure lemmas for the shape predicates -/

theorem noAdjHy_tail {c : Char} {l : List Char} (h : noAdjHy (c :: l) = true) :
    noAdjHy l = true := by
  simp only [noAdjHy, Bool.and_eq_true] at h
  exact h.2

theorem headNot_some {p : Char → Bool} {l : List Char} {d : Char}
    (h : headNot p l = true) (hd : l.head? = some d) : p d = false := by
  cases l with
  | nil => simp at hd
  | cons c r =>
    simp only [List.head?_cons, Option.some.injEq] at hd
    subst hd
    simpa only [headNot, Bool.not_eq_true'] using h

theorem noAdjHy_intro {c : Char} {l : List Char} (h1 : noAdjHy l = true)
    (h2 : ∀ d, l.head? = some d → (isHy c && isHy d) = false) :
    noAdjHy (c :: l) = true := by
  cases l with
  | nil => simp [noAdjHy]
  | cons d r =>
    simp only [noAdjHy, Bool.and_eq_true] at h1 ⊢
    exact ⟨by simp [h2 d rfl], h1⟩

theorem noAdjHy_pair {c : Char} {l : List Char} {d : Char}
    (h : noAdjHy (c :: l) = true) (hd : l.head? = some d) :
    (isHy c && isHy d) = false := by
  cases l with
  | nil => simp at hd
  | cons e r =>
    simp only [List.head?_cons, Option.some.injEq] at hd
    subst hd
    simp only [noAdjHy, Bool.and_eq_true, Bool.not_eq_true'] at h
    exact h.1

theorem noAdjHy_headNot_of_hy {c : Char} {l : List Char}
    (h : noAdjHy (c :: l) = true) (hc : isHy c = true) :
    headNot isHy l = true := by
  cases l with
  | nil => rfl
  | cons d r =>
    have := noAdjHy_pair h (d := d) rfl
    rw [hc, Bool.true_and] at this
    simp [headNot, this]

/-! ### Shape lemmas for the collapse stages -/

theorem collapseNA_shape : ∀ (l : List Char) (b : Bool),
    (collapseNA b l).all isSlugChar = true ∧ noAdjHy (collapseNA b l) = true ∧
      (b = true → headNot isHy (collapseNA b l) = true) := by
  intro l
  induction l with
  | nil => intro b; refine ⟨rfl, rfl, fun _ => rfl⟩
  | cons c rest ih =>
    intro b
    by_cases hc : isLowerAlnum c = true
    · obtain ⟨h1, h2, _⟩ := ih false
      simp only [collapseNA, hc, if_true]
      refine ⟨?_, ?_, fun _ => ?_⟩
      · simp [List.all_cons, h1, isSlugChar, hc]
      · exact noAdjHy_intro h2 fun d _ => by
          simp [lowerAlnum_not_hy hc]
      · simp [headNot, lowerAlnum_not_hy hc]
    · have hc' : isLowerAlnum c = false := by
        simpa using hc
      obtain ⟨h1, h2, h3⟩ := ih true
      cases b with
      | true => simpa only [collapseNA, hc', if_false, if_true] using
          ⟨h1, h2, fun _ => h3 rfl⟩
      | false =>
        simp only [collapseNA, hc', if_false, Bool.false_eq_true]
        refine ⟨?_, ?_, fun hb => by simp at hb⟩
        · simp [List.all_cons, h1, isSlugChar]
        · exact noAdjHy_intro h2 fun d hd => by
            simp [headNot_some (h3 rfl) hd]

theorem collapseHy_id : ∀ (l : List Char) (b : Bool), noAdjHy l = true →
    (b = true → headNot isHy l = true) → collapseHy b l = l := by
  intro l
  induction l with
  | nil => intro b _ _; rfl
  | cons c rest ih =>
    intro b h1 h2
    by_cases hc : c = '-'
    · subst hc
      cases b with
      | true =>
        have := h2 rfl
        simp [headNot, isHy] at this
      | false =>
        have hrest : collapseHy true rest = rest :=
          ih true (noAdjHy_tail h1)
            (fun _ => noAdjHy_headNot_of_hy h1 (by simp [isHy]))
        simp [collapseHy, hrest]
    · have hrest : collapseHy false rest = rest :=
        ih false (noAdjHy_tail h1) (fun hb => by simp at hb)
      simp [collapseHy, hc, hrest]

/-! ### Shape lemmas for the strip stages -/

theorem dropIf_all {p q : Char → Bool} :
    ∀ {l : List Char}, l.all q = true → (dropIf p l).all q = true := by
  intro l
  induction l with
  | nil => intro h; exact h
  | cons c rest ih =>
    intro h
    simp only [List.all_cons, Bool.and_eq_true] at h
    by_cases hc : p c = true
    · simpa only [dropIf, hc, if_true] using ih h.2
    · simp only [dropIf, hc]
      simpa [List.all_cons] using h

theorem dropIf_noAdj {p : Char → Bool} :
    ∀ {l : List Char}, noAdjHy l = true → noAdjHy (dropIf p l) = true := by
  intro l
  induction l with
  | nil => intro h; exact h
  | cons c rest ih =>
    intro h
    by_cases hc : p c = true
    · simpa only [dropIf, hc, if_true] using ih (noAdjHy_tail h)
    · simpa only [dropIf, hc, if_false] using h

theorem dropIf_headNot (p : Char → Bool) :
    ∀ (l : List Char), headNot p (dropIf p l) = true := by
  intro l
  induction l with
  | nil => rfl
  | cons c rest ih =>
    by_cases hc : p c = true
    · simpa only [dropIf, hc, if_true] using ih
    · simp only [dropIf, hc]
      simp only [headNot, Bool.not_eq_true']
      simpa using hc

theorem dropIfEnd_head {p : Char → Bool} {c : Char} {l : List Char}
    {d : Char} {r : List Char} (h : dropIfEnd p (c :: l) = d :: r) :
    d = c := by
  simp only [dropIfEnd] at h
  rcases h2 : dropIfEnd p l with _ | ⟨e, r2⟩
  · rw [h2] at h
    by_cases hc : p c = true
    · simp [hc] at h
    · simp only [hc, if_false] at h
      exact (List.cons.injEq .. ▸ h).1.symm
  · rw [h2] at h
    exact (List.cons.injEq .. ▸ h).1.symm

theorem dropIfEnd_all {p q : Char → Bool} :
    ∀ {l : List Char}, l.all q = true → (dropIfEnd p l).all q = true := by
  intro l
  induction l with
  | nil => intro h; exact h
  | cons c rest ih =>
    intro h
    simp only [List.all_cons, Bool.and_eq_true] at h
    simp only [dropIfEnd]
    rcases h2 : dropIfEnd p rest with _ | ⟨e, r2⟩
    · by_cases hc : p c = true
      · simp [hc]
      · simp [hc, List.all_cons, h.1]
    · have := h2 ▸ ih h.2
      simp [List.all_cons, h.1, this]

theorem dropIfEnd_noAdj {p : Char → Bool} :
    ∀ {l : List Char}, noAdjHy l = true → noAdjHy (dropIfEnd p l) = true := by
  intro l
  induction l with
  | nil => intro h; exact h
  | cons c rest ih =>
    intro h
    simp only [dropIfEnd]
    rcases h2 : dropIfEnd p rest with _ | ⟨e, r2⟩
    · by_cases hc : p c = true
      · simp [hc, noAdjHy]
      · simp [hc, noAdjHy]
    · have hrest : noAdjHy (e :: r2) = true := h2 ▸ ih (noAdjHy_tail h)
      refine noAdjHy_intro hrest fun d hd => ?_
      simp only [List.head?_cons, Option.some.injEq] at hd
      subst hd
      rcases rest with _ | ⟨f, r3⟩
      · simp [dropIfEnd] at h2
      · have hef : e = f := dropIfEnd_head h2
        subst hef
        exact noAdjHy_pair h rfl

theorem dropIfEnd_headNot {p q : Char → Bool} :
    ∀ {l : List Char}, headNot q l = true → headNot q (dropIfEnd p l) = true := by
  intro l
  induction l with
  | nil => intro h; exact h
  | cons c rest _ =>
    intro h
    simp only [dropIfEnd]
    rcases h2 : dropIfEnd p rest with _ | ⟨e, r2⟩
    · by_cases hc : p c = true
      · simp [hc, headNot]
      · simpa [hc, headNot] using h
    · simpa [headNot] using h

theorem dropIfEnd_lastNot (p : Char → Bool) :
    ∀ (l : List Char), lastNot p (dropIfEnd p l) = true := by
  intro l
  induction l with
  | nil => rfl
  | cons c rest ih =>
    simp only [dropIfEnd]
    rcases h2 : dropIfEnd p rest with _ | ⟨e, r2⟩
    · by_cases hc : p c = true
      · simp [hc, lastNot]
      · simp [hc, lastNot]
    · have := h2 ▸ ih
      simpa [lastNot] using this

theorem stripIf_shape {p : Char → Bool} {l : List Char}
    (hall : l.all isSlugChar = true) (hadj : noAdjHy l = true) :
    (stripIf p l).all isSlugChar = true ∧ noAdjHy (stripIf p l) = true ∧
      headNot p (stripIf p l) = true ∧ lastNot p (stripIf p l) = true := by
  refine ⟨dropIfEnd_all (dropIf_all hall), dropIfEnd_noAdj (dropIf_noAdj hadj),
    dropIfEnd_headNot (dropIf_headNot p l), dropIfEnd_lastNot p _⟩

/-- The output of `slugify` is always a well-shaped slug. -/
theorem slugifyL_shape (l : List Char) : slugShaped (slugifyL l) = true := by
  unfold slugifyL stripHyphen
  obtain ⟨h1, h2, _⟩ :=
    collapseNA_shape (bvSub false (dropExt (dropLogo (stripSlash (lowerL (pyStrip l)))))) false
  rw [collapseHy_id _ false h2 (fun hb => by simp at hb)]
  obtain ⟨g1, g2, g3, g4⟩ := stripIf_shape (p := isHy) h1 h2
  simp only [slugShaped, Bool.and_eq_true]
  exact ⟨⟨⟨g1, g2⟩, g3⟩, g4⟩

/-! ### Identity lemmas: a well-shaped slug is a fixed point of each
stage of `slugify`, except for the `logo-`-prefix and separator-form
`b-v` rewrites which are excluded by hypothesis -/

theorem dropIf_id {p : Char → Bool} {l : List Char}
    (h : headNot p l = true) : dropIf p l = l := by
  cases l with
  | nil => rfl
  | cons c rest =>
    simp only [headNot, Bool.not_eq_true'] at h
    simp [dropIf, h]

theorem dropIfEnd_id {p : Char → Bool} :
    ∀ {l : List Char}, lastNot p l = true → dropIfEnd p l = l := by
  intro l
  induction l with
  | nil => intro _; rfl
  | cons c rest ih =>
    intro h
    cases rest with
    | nil =>
      simp only [lastNot, Bool.not_eq_true'] at h
      simp [dropIfEnd, h]
    | cons d r =>
      have h2 : lastNot p (d :: r) = true := h
      rw [dropIfEnd, ih h2]

theorem stripIf_id {p : Char → Bool} {l : List Char}
    (hh : headNot p l = true) (hl : lastNot p l = true) : stripIf p l = l := by
  unfold stripIf
  rw [dropIf_id hh, dropIfEnd_id hl]

theorem headNot_of_all {p q : Char → Bool} {l : List Char}
    (hall : l.all q = true) (himp : ∀ c, q c = true → p c = false) :
    headNot p l = true := by
  cases l with
  | nil => rfl
  | cons c rest =>
    simp only [List.all_cons, Bool.and_eq_true] at hall
    simp [headNot, himp c hall.1]

theorem lastNot_of_all {p q : Char → Bool} :
    ∀ {l : List Char}, l.all q = true →
      (∀ c, q c = true → p c = false) → lastNot p l = true := by
  intro l
  induction l with
  | nil => intro _ _; rfl
  | cons c rest ih =>
    intro hall himp
    simp only [List.all_cons, Bool.and_eq_true] at hall
    cases rest with
    | nil => simp [lastNot, himp c hall.1]
    | cons d r => exact ih hall.2 himp

theorem pyStrip_id {l : List Char} (hall : l.all isSlugChar = true) :
    pyStrip l = l :=
  stripIf_id (headNot_of_all hall fun _ hc => slugChar_not_space hc)
    (lastNot_of_all hall fun _ hc => slugChar_not_space hc)

theorem lowerL_id : ∀ {l : List Char}, l.all isSlugChar = true →
    lowerL l = l := by
  intro l
  induction l with
  | nil => intro _; rfl
  | cons c rest ih =>
    intro h
    simp only [List.all_cons, Bool.and_eq_true] at h
    have h2 := ih h.2
    simp only [lowerL, List.map_cons] at h2 ⊢
    rw [slugChar_toLower h.1, h2]

theorem stripSlash_id {l : List Char} (hall : l.all isSlugChar = true) :
    stripSlash l = l :=
  stripIf_id
    (headNot_of_all hall fun c hc => by simp [slugChar_not_slash hc])
    (lastNot_of_all hall fun c hc => by simp [slugChar_not_slash hc])

theorem dropLogo_id {l : List Char}
    (h : logoDashL.isPrefixOf l = false) : dropLogo l = l := by
  simp [dropLogo, h]

theorem isPrefixOf_mem {c : Char} :
    ∀ {p l : List Char}, List.isPrefixOf p l = true → c ∈ p → c ∈ l := by
  intro p
  induction p with
  | nil => intro l _ hc; simp at hc
  | cons a as ih =>
    intro l hp hc
    cases l with
    | nil => simp [List.isPrefixOf] at hp
    | cons b bs =>
      simp only [List.isPrefixOf_cons₂, Bool.and_eq_true, beq_iff_eq] at hp
      rcases List.mem_cons.mp hc with rfl | hc2
      · exact List.mem_cons.mpr (Or.inl hp.1)
      · exact List.mem_cons.mpr (Or.inr (ih hp.2 hc2))

theorem isSuffixOf_dot_false (pat : List Char) {l : List Char}
    (hdot : '.' ∈ pat)
    (hall : l.all isSlugChar = true) : List.isSuffixOf pat l = false := by
  rw [Bool.eq_false_iff]
  intro h
  unfold List.isSuffixOf at h
  have hmem : '.' ∈ l.reverse :=
    isPrefixOf_mem h (List.mem_reverse.mpr hdot)
  have := List.all_eq_true.mp hall '.' (List.mem_reverse.mp hmem)
  exact absurd this (by decide)

theorem dropExt_id {l : List Char} (hall : l.all isSlugChar = true) :
    dropExt l = l := by
  have h1 := isSuffixOf_dot_false ['.', 'j', 'p', 'g'] (by decide) hall
  have h2 := isSuffixOf_dot_false ['.', 'j', 'p', 'e', 'g'] (by decide) hall
  have h3 := isSuffixOf_dot_false ['.', 'p', 'n', 'g'] (by decide) hall
  have h4 := isSuffixOf_dot_false ['.', 'g', 'i', 'f'] (by decide) hall
  simp [dropExt, h1, h2, h3, h4]

theorem collapseNA_id : ∀ (l : List Char) (b : Bool),
    l.all isSlugChar = true → noAdjHy l = true →
    (b = true → headNot isHy l = true) → collapseNA b l = l := by
  intro l
  induction l with
  | nil => intro b _ _ _; rfl
  | cons c rest ih =>
    intro b hall hadj hhead
    simp only [List.all_cons, Bool.and_eq_true] at hall
    by_cases hc : isLowerAlnum c = true
    · simp only [collapseNA, hc, if_true]
      rw [ih false hall.2 (noAdjHy_tail hadj) (fun hb => by simp at hb)]
    · have hc2 : isHy c = true := by
        have := hall.1
        simp only [isSlugChar, Bool.or_eq_true] at this
        rcases this with h | h
        · exact absurd h hc
        · simpa [isHy] using h
      have hcEq : c = '-' := by simpa [isHy] using hc2
      cases b with
      | true =>
        have := hhead rfl
        simp [headNot, hc2] at this
      | false =>
        have hrest := ih true hall.2 (noAdjHy_tail hadj)
          (fun _ => noAdjHy_headNot_of_hy hadj hc2)
        have hc' : isLowerAlnum c = false := by simpa using hc
        simp only [collapseNA, hc', Bool.false_eq_true, if_false]
        rw [hrest, hcEq]

theorem bvSubF_id : ∀ (fuel : Nat) (pw : Bool) (l : List Char),
    bvNoSepF fuel pw l = true → bvSubF fuel pw l = l := by
  intro fuel
  induction fuel with
  | zero => intro pw l _; rfl
  | succ fuel ih =>
    intro pw l h
    cases l with
    | nil => rfl
    | cons c rest =>
      cases h1 : (c = 'b' && !pw) with
      | false =>
        simp only [bvNoSepF, h1, Bool.false_eq_true, if_false] at h
        simp only [bvSubF, h1, Bool.false_eq_true, if_false]
        rw [ih _ _ h]
      | true =>
        cases rest with
        | nil => simp [bvSubF, h1]
        | cons d rest2 =>
          cases h2 : isBvSep d with
          | true =>
            cases rest2 with
            | nil =>
              simp only [bvNoSepF, h1, if_true, h2] at h
              simp only [bvSubF, h1, if_true, h2]
              rw [ih _ _ h]
            | cons e r3 =>
              cases h3 : (e = 'v' && noWordAt r3) with
              | true =>
                simp [bvNoSepF, h1, h2, h3] at h
              | false =>
                simp only [bvNoSepF, h1, if_true, h2, h3,
                  Bool.false_eq_true, if_false] at h
                simp only [bvSubF, h1, if_true, h2, h3,
                  Bool.false_eq_true, if_false]
                rw [ih _ _ h]
          | false =>
            cases h3 : (d = 'v' && noWordAt rest2) with
            | true =>
              have hc : c = 'b' := by
                have := (Bool.and_eq_true _ _).mp h1
                exact of_decide_eq_true this.1
              have hd : d = 'v' := by
                have := (Bool.and_eq_true _ _).mp h3
                exact of_decide_eq_true this.1
              simp only [bvNoSepF, h1, if_true, h2, Bool.false_eq_true,
                if_false, h3] at h
              simp only [bvSubF, h1, if_true, h2, Bool.false_eq_true,
                if_false, h3]
              rw [ih _ _ h, hc, hd]
            | false =>
              simp only [bvNoSepF, h1, if_true, h2, h3,
                Bool.false_eq_true, if_false] at h
              simp only [bvSubF, h1, if_true, h2, h3,
                Bool.false_eq_true, if_false]
              rw [ih _ _ h]

/-- On inputs whose slug neither starts with `logo-` nor contains a
separator-form `b`/`v` pair, `slugify` is idempotent. -/
theorem slugifyL_idem (x : List Char)
    (h1 : logoDashL.isPrefixOf (slugifyL x) = false)
    (h2 : bvNoSep (slugifyL x) = true) :
    slugifyL (slugifyL x) = slugifyL x := by
  have hs := slugifyL_shape x
  simp only [slugShaped, Bool.and_eq_true] at hs
  obtain ⟨⟨⟨hall, hadj⟩, hhead⟩, hlast⟩ := hs
  generalize hgen : slugifyL x = y at h1 h2 hall hadj hhead hlast ⊢
  unfold slugifyL
  rw [pyStrip_id hall, lowerL_id hall, stripSlash_id hall, dropLogo_id h1,
    dropExt_id hall]
  rw [show bvSub false y = y from bvSubF_id _ _ _ h2]
  rw [collapseNA_id _ false hall hadj (fun hb => by simp at hb)]
  rw [collapseHy_id _ false hadj (fun hb => by simp at hb)]
  exact stripIf_id hhead hlast

/-! ### Lemmas on the sorted materialization and the flow loop -/

theorem sortM_sorted (m : Multiset String) :
    List.Sorted (· ≤ ·) (sortM m) :=
  Quot.inductionOn m fun l => List.sorted_insertionSort _ l

theorem sortM_coe (m : Multiset String) : (sortM m : Multiset String) = m :=
  Quot.inductionOn m fun l => Quot.sound (List.perm_insertionSort _ l)

theorem sortM_mem {a : String} {m : Multiset String} :
    a ∈ sortM m ↔ a ∈ m := by
  rw [← Multiset.mem_coe, sortM_coe]

theorem sortM_length (m : Multiset String) :
    (sortM m).length = Multiset.card m :=
  Quot.inductionOn m fun l => by
    show (l.insertionSort (· ≤ ·)).length = Multiset.card (l : Multiset String)
    rw [List.length_insertionSort, Multiset.coe_card]

theorem sortFinset_sorted (s : Finset String) :
    List.Sorted (· ≤ ·) (sortFinset s) :=
  sortM_sorted s.val

theorem sortFinset_mem {a : String} {s : Finset String} :
    a ∈ sortFinset s ↔ a ∈ s :=
  sortM_mem

theorem sortFinset_length (s : Finset String) :
    (sortFinset s).length = s.card :=
  sortM_length s.val

theorem sortFinset_toFinset (s : Finset String) :
    (sortFinset s).toFinset = s := by
  ext a
  rw [List.mem_toFinset, sortFinset_mem]

theorem computeFlows_length (snaps : List Snapshot) :
    (computeFlows snaps).length = snaps.length - 1 := by
  simp only [computeFlows, List.length_zipWith, List.length_tail]
  omega

theorem computeFlows_getElem (snaps : List Snapshot) (i : Nat)
    (h : i + 1 < snaps.length) :
    (computeFlows snaps)[i]? =
      some (mkFlow (snaps.get ⟨i, by omega⟩) (snaps.get ⟨i + 1, h⟩)) := by
  have h1 : snaps[i]? = some (snaps.get ⟨i, by omega⟩) :=
    List.getElem?_eq_getElem (by omega)
  have h2 : snaps.tail[i]? = some (snaps.get ⟨i + 1, h⟩) := by
    rw [List.getElem?_tail]
    exact List.getElem?_eq_getElem h
  rw [computeFlows, List.getElem?_zipWith', h1, h2]
  rfl

theorem computeFlows_mem {snaps : List Snapshot} {r : FlowRecord}
    (h : r ∈ computeFlows snaps) : ∃ a b, r = mkFlow a b := by
  rw [computeFlows] at h
  obtain ⟨i, hi, hr⟩ := List.mem_iff_getElem.mp h
  rw [List.getElem_zipWith] at hr
  exact ⟨_, _, hr.symm⟩

/-! ### Lemmas on substring search and `extract_company_name` -/

theorem afterFirst_isSome {pat : List Char} :
    ∀ {l : List Char}, (afterFirst pat l).isSome = containsSub pat l := by
  intro l
  induction l with
  | nil =>
    by_cases hp : pat.isPrefixOf ([] : List Char) = true
    · simp [afterFirst, containsSub, hp]
    · simp only [Bool.not_eq_true] at hp
      simp [afterFirst, containsSub, hp]
  | cons c rest ih =>
    by_cases hp : pat.isPrefixOf (c :: rest) = true
    · simp [afterFirst, containsSub, hp]
    · simp only [Bool.not_eq_true] at hp
      simp [afterFirst, containsSub, hp, ih]

/-- The function `extract_company_name` characterized through the spec's
genuine-member-reference predicate. -/
theorem extractL_eq (url : List Char) :
    extractL url = if isGenuineMemberRef url = true
      then some (slugifyL (ledenSegment (pyStrip url))) else none := by
  unfold extractL isGenuineMemberRef
  cases hc1 : containsSub ledenL (pyStrip url) with
  | false =>
    have hnone : afterFirst ledenL (pyStrip url) = none := by
      rw [← Option.not_isSome_iff_eq_none, afterFirst_isSome, hc1]
      simp
    simp [hc1, hnone]
  | true =>
    obtain ⟨r, hr⟩ : ∃ r, afterFirst ledenL (pyStrip url) = some r := by
      rw [← Option.isSome_iff_exists, afterFirst_isSome, hc1]
    cases hc2 : List.isSuffixOf jpgL (pyStrip url) with
    | true => simp [hc1, hc2]
    | false =>
      cases hc3 : List.isSuffixOf pngL (pyStrip url) with
      | true => simp [hc1, hc2, hc3]
      | false =>
        cases hc4 : wpL.isPrefixOf (ledenSegment (pyStrip url)) with
        | true =>
          have := hc4
          unfold ledenSegment at this
          rw [hr] at this
          simp only [Option.getD_some] at this
          simp [hc1, hc2, hc3, hc4, hr, this]
        | false =>
          have := hc4
          unfold ledenSegment at this
          rw [hr] at this
          simp only [Option.getD_some] at this
          simp [hc1, hc2, hc3, hc4, hr, this, ledenSegment]

/-! ### Lemmas on the fetch loop -/

theorem fetchLoop_append {α β : Type} (fetch : α → FetchOutcome β)
    (xs ys : List α) :
    fetchLoop fetch (xs ++ ys) = fetchLoop fetch xs ++ fetchLoop fetch ys := by
  induction xs with
  | nil => rfl
  | cons u rest ih =>
    simp only [List.cons_append, fetchLoop]
    cases fetch u <;> simp [ih]

theorem fetchLoop_filterMap {α β : Type} (fetch : α → FetchOutcome β) :
    ∀ l : List α, fetchLoop fetch l = l.filterMap fun u =>
      match fetch u with
      | .success b => some b
      | _ => none := by
  intro l
  induction l with
  | nil => rfl
  | cons u rest ih =>
    simp only [fetchLoop, List.filterMap_cons]
    cases fetch u <;> simp [ih]

/-! ## Claims -/

/-- C1: for every pair of consecutive snapshots with member sets A
(earlier) and B (later), the flow record produced by the flow computation
satisfies `stayed = A ∩ B`, `joined = B − A` and `left = A − B`. -/
theorem flow_record_is_set_diff (snaps : List Snapshot) (i : Nat)
    (h : i + 1 < snaps.length) :
    ∃ r, (computeFlows snaps)[i]? = some r ∧
      r.stayed_members.toFinset =
        (snaps.get ⟨i, by omega⟩).members ∩ (snaps.get ⟨i + 1, h⟩).members ∧
      r.joined_members.toFinset =
        (snaps.get ⟨i + 1, h⟩).members \ (snaps.get ⟨i, by omega⟩).members ∧
      r.left_members.toFinset =
        (snaps.get ⟨i, by omega⟩).members \ (snaps.get ⟨i + 1, h⟩).members := by
  refine ⟨_, computeFlows_getElem snaps i h, ?_, ?_, ?_⟩ <;>
    simp [mkFlow, sortFinset_toFinset]

/-- Witness for C1 on two concrete snapshots. -/
theorem flow_record_is_set_diff_witness :
    ∃ r, (computeFlows [(⟨"d1", {"a", "b"}⟩ : Snapshot), ⟨"d2", {"b", "c"}⟩])[0]? = some r ∧
      r.stayed_members.toFinset = {"a", "b"} ∩ {"b", "c"} ∧
      r.joined_members.toFinset = {"b", "c"} \ {"a", "b"} ∧
      r.left_members.toFinset = {"a", "b"} \ {"b", "c"} :=
  flow_record_is_set_diff [⟨"d1", {"a", "b"}⟩, ⟨"d2", {"b", "c"}⟩] 0 (by decide)

/-- C2: for any two member sets A and B, the computed stayed, joined and
left sets are pairwise disjoint, their union is `A ∪ B`, and the counts
satisfy `|stayed| + |left| = |A|` and `|stayed| + |joined| = |B|`. -/
theorem flow_partition_counts (d1 d2 : String) (A B : Finset String) :
    Disjoint (mkFlow ⟨d1, A⟩ ⟨d2, B⟩).stayed_members.toFinset
      (mkFlow ⟨d1, A⟩ ⟨d2, B⟩).joined_members.toFinset ∧
    Disjoint (mkFlow ⟨d1, A⟩ ⟨d2, B⟩).stayed_members.toFinset
      (mkFlow ⟨d1, A⟩ ⟨d2, B⟩).left_members.toFinset ∧
    Disjoint (mkFlow ⟨d1, A⟩ ⟨d2, B⟩).joined_members.toFinset
      (mkFlow ⟨d1, A⟩ ⟨d2, B⟩).left_members.toFinset ∧
    (mkFlow ⟨d1, A⟩ ⟨d2, B⟩).stayed_members.toFinset ∪
      (mkFlow ⟨d1, A⟩ ⟨d2, B⟩).joined_members.toFinset ∪
      (mkFlow ⟨d1, A⟩ ⟨d2, B⟩).left_members.toFinset = A ∪ B ∧
    (mkFlow ⟨d1, A⟩ ⟨d2, B⟩).stayed + (mkFlow ⟨d1, A⟩ ⟨d2, B⟩).left = A.card ∧
    (mkFlow ⟨d1, A⟩ ⟨d2, B⟩).stayed + (mkFlow ⟨d1, A⟩ ⟨d2, B⟩).joined = B.card := by
  simp only [mkFlow, sortFinset_toFinset]
  refine ⟨?_, ?_, ?_, ?_, ?_, ?_⟩
  · rw [Finset.disjoint_left]
    intro a ha hb
    exact (Finset.mem_sdiff.mp hb).2 (Finset.mem_inter.mp ha).1
  · rw [Finset.disjoint_left]
    intro a ha hb
    exact (Finset.mem_sdiff.mp hb).2 (Finset.mem_inter.mp ha).2
  · rw [Finset.disjoint_left]
    intro a ha hb
    exact (Finset.mem_sdiff.mp ha).2 (Finset.mem_sdiff.mp hb).1
  · ext a
    simp only [Finset.mem_union, Finset.mem_inter, Finset.mem_sdiff]
    tauto
  · exact Finset.card_inter_add_card_sdiff A B
  · rw [Finset.inter_comm]
    exact Finset.card_inter_add_card_sdiff B A

/-- C3, counterexample: `slugify` is not idempotent, because a second
pass strips another leading `logo-` prefix. -/
theorem slugify_not_idempotent :
    slugify "logo-logo-abc" = "logo-abc" ∧
    slugify (slugify "logo-logo-abc") = "abc" ∧
    slugify (slugify "logo-logo-abc") ≠ slugify "logo-logo-abc" := by
  refine ⟨by decide, by decide, by decide⟩

/-- C3, amended: `slugify` is idempotent on every input whose slug does
not start with `logo-` and contains no hyphen-separated single-letter
`b`/`v` token pair (the two rewrites a second pass can still apply). -/
theorem slugify_idem_conditional (x : String)
    (h1 : logoDashL.isPrefixOf (slugify x).data = false)
    (h2 : bvNoSep (slugify x).data = true) :
    slugify (slugify x) = slugify x :=
  congrArg String.mk (slugifyL_idem x.data h1 h2)

/-- Witness for the amended C3 at a concrete input. -/
theorem slugify_idem_conditional_witness :
    logoDashL.isPrefixOf (slugify "Acme B.V.").data = false ∧
    bvNoSep (slugify "Acme B.V.").data = true ∧
    slugify (slugify "Acme B.V.") = slugify "Acme B.V." :=
  ⟨by decide, by decide,
    slugify_idem_conditional "Acme B.V." (by decide) (by decide)⟩

/-- C4: N snapshots in date order produce exactly N−1 flow records, one
per consecutive pair in the same order, and every record's member lists
are sorted. -/
theorem computeFlows_order_sorted (snaps : List Snapshot) :
    (computeFlows snaps).length = snaps.length - 1 ∧
    (∀ i (h : i + 1 < snaps.length),
      (computeFlows snaps)[i]? =
        some (mkFlow (snaps.get ⟨i, by omega⟩) (snaps.get ⟨i + 1, h⟩))) ∧
    (∀ r ∈ computeFlows snaps,
      List.Sorted (· ≤ ·) r.stayed_members ∧
      List.Sorted (· ≤ ·) r.joined_members ∧
      List.Sorted (· ≤ ·) r.left_members) := by
  refine ⟨computeFlows_length snaps, fun i h => computeFlows_getElem snaps i h,
    fun r hr => ?_⟩
  obtain ⟨a, b, rfl⟩ := computeFlows_mem hr
  exact ⟨sortFinset_sorted _, sortFinset_sorted _, sortFinset_sorted _⟩

/-- Witness for C4 on three concrete snapshots. -/
theorem computeFlows_order_sorted_witness :
    (computeFlows [(⟨"d1", {"a"}⟩ : Snapshot), ⟨"d2", {"a", "b"}⟩, ⟨"d3", {"b"}⟩]).length = 2 ∧
    (computeFlows [(⟨"d1", {"a"}⟩ : Snapshot), ⟨"d2", {"a", "b"}⟩, ⟨"d3", {"b"}⟩])[0]? =
      some (mkFlow ⟨"d1", {"a"}⟩ ⟨"d2", {"a", "b"}⟩) :=
  ⟨((computeFlows_order_sorted [⟨"d1", {"a"}⟩, ⟨"d2", {"a", "b"}⟩, ⟨"d3", {"b"}⟩]).1).trans
      (by decide),
    (computeFlows_order_sorted [⟨"d1", {"a"}⟩, ⟨"d2", {"a", "b"}⟩, ⟨"d3", {"b"}⟩]).2.1 0
      (by decide)⟩

/-- C5: the member URLs `…/leden/acme-bv/` and `…/leden/acme-b-v/` both
slugify to `acme-bv`, and the flow computation over two consecutive
snapshots containing them classifies the company as stayed, not
left-plus-joined. -/
theorem bv_variant_urls_classified_stayed :
    extract_company_name "https://x/leden/acme-bv/" = some "acme-bv" ∧
    extract_company_name "https://x/leden/acme-b-v/" = some "acme-bv" ∧
    computeFlows
        [snapshotFromUrls "2024-01-01" ["https://x/leden/acme-bv/"],
         snapshotFromUrls "2024-02-01" ["https://x/leden/acme-b-v/"]] =
      [⟨"2024-01-01", "2024-02-01", 1, 0, 0, ["acme-bv"], [], []⟩] := by
  refine ⟨by decide, by decide, by decide⟩

/-- C6: `extract_company_name` returns `None` exactly when the URL is
not a genuine member reference (no `/leden/` segment, a `.jpg`/`.png`
logo-image ending, or a `wp-content` slug), and returns a well-shaped
canonical slug on every genuine member profile URL. -/
theorem extract_none_iff_not_genuine (url : String) :
    (extract_company_name url = none ↔ isGenuineMemberRef url.data = false) ∧
    (∀ s, extract_company_name url = some s → slugShaped s.data = true) := by
  have h := extractL_eq url.data
  constructor
  · rw [extract_company_name, Option.map_eq_none', h]
    cases hg : isGenuineMemberRef url.data <;> simp
  · intro s hs
    rw [extract_company_name] at hs
    obtain ⟨l, hl, hsl⟩ := Option.map_eq_some'.mp hs
    rw [h] at hl
    cases hg : isGenuineMemberRef url.data with
    | false => rw [hg] at hl; simp at hl
    | true =>
      rw [hg, if_pos rfl] at hl
      have hEq : slugifyL (ledenSegment (pyStrip url.data)) = l :=
        Option.some.inj hl
      subst hsl
      show slugShaped l = true
      rw [← hEq]
      exact slugifyL_shape _

/-- Witness for C6 on a concrete genuine member URL. -/
theorem extract_none_iff_not_genuine_witness :
    extract_company_name "https://x/leden/acme-bv/" = some "acme-bv" ∧
    slugShaped ("acme-bv" : String).data = true :=
  ⟨by decide,
    (extract_none_iff_not_genuine "https://x/leden/acme-bv/").2 "acme-bv"
      (by decide)⟩

/-- C7: a slug in both the departed and joined sets is in the exact
cross-org match; a pair matching only after aggressive normalization
appears (as its normalized key) in the fuzzy match only, with neither
slug in the exact match. -/
theorem cross_org_exact_and_fuzzy (departed joined : Finset String)
    (x y : String) :
    (x ∈ departed → x ∈ joined → x ∈ exactMatch departed joined) ∧
    (x ∈ departed → y ∈ joined → normalize_slug x = normalize_slug y →
      x ∉ joined → y ∉ departed →
      normalize_slug x ∈ fuzzyMatch departed joined ∧
      x ∉ exactMatch departed joined ∧ y ∉ exactMatch departed joined) := by
  constructor
  · intro h1 h2
    exact Finset.mem_inter.mpr ⟨h1, h2⟩
  · intro h1 h2 heq hx hy
    refine ⟨?_, ?_, ?_⟩
    · refine Finset.mem_inter.mpr ⟨Finset.mem_image_of_mem _ h1, ?_⟩
      rw [heq]
      exact Finset.mem_image_of_mem _ h2
    · intro hmem
      exact hx (Finset.mem_inter.mp hmem).2
    · intro hmem
      exact hy (Finset.mem_inter.mp hmem).1

/-- Witness for C7: `acme-bv` departed NLdigital, `acme-nl` joined
NLConnect; they match only after normalization (both normalize to
`acme`). -/
theorem cross_org_exact_and_fuzzy_witness :
    normalize_slug "acme-bv" ∈ fuzzyMatch {"acme-bv"} {"acme-nl"} ∧
    "acme-bv" ∉ exactMatch {"acme-bv"} {"acme-nl"} ∧
    "acme-nl" ∉ exactMatch {"acme-bv"} {"acme-nl"} :=
  (cross_org_exact_and_fuzzy {"acme-bv"} {"acme-nl"} "acme-bv" "acme-nl").2
    (by decide) (by decide) (by decide) (by decide) (by decide)

/-- C8: in the fetch scripts' per-item loop, an error on one item is
caught and the item skipped while all remaining items are still
processed; the loop always completes with exactly the successful
results, so no per-item failure aborts the run. -/
theorem fetch_loop_error_skipped {α β : Type} (fetch : α → FetchOutcome β)
    (xs ys : List α) (x : α) (msg : String)
    (h : fetch x = FetchOutcome.exn msg) :
    fetchLoop fetch (xs ++ x :: ys) =
      fetchLoop fetch xs ++ fetchLoop fetch ys ∧
    fetchLoop fetch (xs ++ x :: ys) =
      (xs ++ x :: ys).filterMap (fun u =>
        match fetch u with
        | .success b => some b
        | _ => none) := by
  constructor
  · rw [fetchLoop_append]
    simp [fetchLoop, h]
  · exact fetchLoop_filterMap fetch (xs ++ x :: ys)

/-- Witness for C8 on a concrete three-item run whose middle item
raises. -/
theorem fetch_loop_error_skipped_witness :
    (fun n : Nat => if n = 1 then FetchOutcome.exn "boom" else FetchOutcome.success n) 1 =
      FetchOutcome.exn "boom" ∧
    fetchLoop (fun n : Nat => if n = 1 then FetchOutcome.exn "boom" else FetchOutcome.success n)
        ([0] ++ 1 :: [2]) =
      fetchLoop (fun n : Nat => if n = 1 then FetchOutcome.exn "boom" else FetchOutcome.success n) [0] ++
      fetchLoop (fun n : Nat => if n = 1 then FetchOutcome.exn "boom" else FetchOutcome.success n) [2] :=
  ⟨rfl,
    (fetch_loop_error_skipped
      (fun n : Nat => if n = 1 then FetchOutcome.exn "boom" else FetchOutcome.success n)
      [0] [2] 1 "boom" rfl).1⟩

/-- C9: `slugify` is total, maps `None` and the empty string to the
empty string, and every output consists only of lowercase letters,
digits and single interior hyphens, never starting or ending with a
hyphen. -/
theorem slugify_total_wellformed :
    slugifyOpt none = "" ∧ slugify "" = "" ∧
      ∀ s : String, slugShaped (slugify s).data = true :=
  ⟨rfl, rfl, fun s => slugifyL_shape s.data⟩

/-- C10, counterexample: the three copies of the URL-to-slug logic do
not agree: on `…/leden/logo-acme/` the flow script's
`extract_company_name` strips the `logo-` prefix and returns a slug,
while `slugify_nldigital` and `slugify_url` reject any URL containing
`logo` and return `None`. -/
theorem url_slug_copies_disagree :
    extract_company_name "https://x/leden/logo-acme/" = some "acme" ∧
    slugify_nldigital "https://x/leden/logo-acme/" = none ∧
    slugify_url "https://x/leden/logo-acme/" = none := by
  refine ⟨by decide, by decide, by decide⟩

/-- C10, amended: the two textually identical copies,
`slugify_nldigital` in `analyze_cross_org_flows.py` and `slugify_url` in
`check_microsoft_partners.py`, agree on every input URL;
`extract_company_name` does not always agree with them. -/
theorem slugify_nldigital_eq_slugify_url (url : String) :
    slugify_nldigital url = slugify_url url := rfl

end NLdigital
